import Mathlib

/-!
Verification of the `average` operator of this rxjs fork
(`src/internal/operators/average.ts`).

The operator keeps a running weighted average of the values of an upstream
stream.  JavaScript numbers are modelled by `ℚ` (exact arithmetic; the spec's
"within floating-point tolerance" becomes exact equality).  A projection
function that may `throw` is modelled as returning `Except E ℚ`, where `E`
is the type of thrown values.  The runtime test `isNumber x` together with
the numeric value of `x` is abstracted as a function `isNum : T → Option ℚ`
(`some q` when the item is the number `q`, `none` otherwise).
-/

namespace RxAverage

/-- A projection function `(value, index) → number` that may throw. -/
abbrev Proj (T E : Type) := T → Nat → Except E ℚ

/-- The mutable numeric fields of `AverageSubscriber`:
`count`, `value` (the running average) and `sumWeights`. -/
structure AverageState where
  count : Nat
  value : ℚ
  sumWeights : ℚ
deriving Repr, DecidableEq

/-- Initial field values of a fresh `AverageSubscriber`:
`count = 0`, `value = 0`, `sumWeights = 0`. -/
def initState : AverageState := ⟨0, 0, 0⟩

/-- An event delivered to the downstream subscriber. -/
inductive Event (E : Type) where
  | next (q : ℚ)
  | error (e : E)
  | complete
deriving Repr, DecidableEq

/-- Recognizer for the completion event. -/
def Event.isComplete {E : Type} : Event E → Bool
  | .complete => true
  | _ => false

/-- Recognizer for value events. -/
def Event.isNext {E : Type} : Event E → Bool
  | .next _ => true
  | _ => false

/-- The local default value projection `identity` of `average`:
`isNumber(x) ? x : 0`. -/
def identity {T E : Type} (isNum : T → Option ℚ) : Proj T E :=
  fun x _ => Except.ok ((isNum x).getD 0)

/-- The local default weight projection `one` of `average`: constantly `1`. -/
def one {T E : Type} : Proj T E :=
  fun _ _ => Except.ok 1

/-- Calling a value that is not a function (JavaScript `undefined` passed where
a projection was expected) throws; `tyErr` stands for that `TypeError`. -/
def undefinedFn {T E : Type} (tyErr : E) : Proj T E :=
  fun _ _ => Except.error tyErr

/-- The defaulting performed by `averageOperation` when the operator is applied
to a source: the three-way `typeof` branch choosing the projection pair handed
to `AverageOperator`.  `none` models an argument that is not a function. -/
def averageOperation {T E : Type} (tyErr : E) (isNum : T → Option ℚ)
    (project projectWeight : Option (Proj T E)) : Proj T E × Proj T E :=
  if project.isNone && projectWeight.isNone then
    (identity isNum, one)
  else if projectWeight.isNone then
    (project.getD (undefinedFn tyErr), one)
  else
    (project.getD (undefinedFn tyErr), projectWeight.getD (undefinedFn tyErr))

/-- The per-subscription `AverageSubscriber` instance: the resolved projection
pair, the emit-mode flag `isRunning` and the numeric state. -/
structure AverageSubscriber (T E : Type) where
  project : Proj T E
  projectWeight : Proj T E
  isRunning : Bool
  state : AverageState

/-- The `AverageSubscriber` constructor: stores the projections and sets
`this.isRunning = true`. -/
def mkAverageSubscriber {T E : Type} (project projectWeight : Proj T E) :
    AverageSubscriber T E :=
  { project := project, projectWeight := projectWeight,
    isRunning := true, state := initState }

/-- Applying the operator to a source and subscribing: `averageOperation`
resolves the projections once, `AverageOperator.call` builds the
`AverageSubscriber` from the resolved pair. -/
def subscribeAverage {T E : Type} (tyErr : E) (isNum : T → Option ℚ)
    (project projectWeight : Option (Proj T E)) : AverageSubscriber T E :=
  let r := averageOperation tyErr isNum project projectWeight
  mkAverageSubscriber r.1 r.2

/-- Result of delivering one upstream item, or a run of items: the state after,
the downstream events produced (in order), and whether a projection threw
(in which case the error was forwarded downstream). -/
structure RunOut (E : Type) where
  state : AverageState
  events : List (Event E)
  errored : Bool
deriving Repr, DecidableEq

/-- `AverageSubscriber._next`: project the value and the weight (either may
throw, caught and forwarded as `destination.error`), then
`sumWeights += w; value += (w / sumWeights) * (v - value); count++`, and in
running mode `destination.next(value)`. -/
def averageNext {T E : Type} (project projectWeight : Proj T E)
    (isRunning : Bool) (s : AverageState) (item : T) : RunOut E :=
  match project item s.count with
  | .error err => ⟨s, [.error err], true⟩
  | .ok v =>
    match projectWeight item s.count with
    | .error err => ⟨s, [.error err], true⟩
    | .ok w =>
      let sumWeights := s.sumWeights + w
      let value := s.value + (w / sumWeights) * (v - s.value)
      ⟨⟨s.count + 1, value, sumWeights⟩,
       if isRunning then [.next value] else [], false⟩

/-- `AverageSubscriber._complete`: when not running, emit the final value;
then forward completion. -/
def averageComplete {E : Type} (isRunning : Bool) (s : AverageState) :
    List (Event E) :=
  if isRunning then [.complete] else [.next s.value, .complete]

/-- Modelled from the spec: the host framework's subscriber protocol
(`Subscriber`/`Observable`, code of this repository not under `src/`)
delivers upstream items one at a time in arrival order and, once the
transform has forwarded an error downstream, delivers no further items
("stop processing further upstream items"). -/
def processItems {T E : Type} (project projectWeight : Proj T E)
    (isRunning : Bool) : AverageState → List T → RunOut E
  | s, [] => ⟨s, [], false⟩
  | s, item :: rest =>
    let o := averageNext project projectWeight isRunning s item
    if o.errored then ⟨o.state, o.events, true⟩
    else
      let r := processItems project projectWeight isRunning o.state rest
      ⟨r.state, o.events ++ r.events, r.errored⟩

/-- How a finite upstream stream ends: normal completion or an upstream
error. -/
inductive UpstreamEnd (E : Type) where
  | complete
  | error (e : E)

/-- Modelled from the spec: a full run of the subscription on a finite
upstream.  Items are delivered in order (stopping after a projection error);
then, if no projection threw, the upstream terminal signal is delivered:
completion runs `AverageSubscriber._complete`, an upstream error is forwarded
unchanged by the framework's default `_error` (not overridden by
`AverageSubscriber`, and code of this repository not under `src/`). -/
def runAverage {T E : Type} (project projectWeight : Proj T E)
    (isRunning : Bool) (items : List T) (term : UpstreamEnd E) :
    List (Event E) :=
  let o := processItems project projectWeight isRunning initState items
  if o.errored then o.events
  else
    match term with
    | .complete => o.events ++ averageComplete isRunning o.state
    | .error e => o.events ++ [.error e]

/-- Modelled from the spec: the downstream subscriber unsubscribes after the
`k`-th delivered item; the cancellation propagates upstream (the subscription
returned by `AverageOperator.call` is `source.subscribe(...)`), so only the
first `k` items are ever delivered to the transform and no terminal signal
follows. -/
def runCancelled {T E : Type} (project projectWeight : Proj T E)
    (isRunning : Bool) (items : List T) (k : Nat) : List (Event E) :=
  (processItems project projectWeight isRunning initState (items.take k)).events

/-! ### Pure-projection reference definitions -/

/-- A projection that never throws. -/
def pureProj {T E : Type} (f : T → Nat → ℚ) : Proj T E :=
  fun t i => Except.ok (f t i)

/-- One step of the incremental weighted-mean update of §4 of the spec:
`sumOfWeights += w; runningAverage += (w / sumOfWeights) * (v - runningAverage)`. -/
def stepPure (s : AverageState) (v w : ℚ) : AverageState :=
  ⟨s.count + 1,
   s.value + (w / (s.sumWeights + w)) * (v - s.value),
   s.sumWeights + w⟩

/-- The incremental update applied in arrival order to a list of
(value, weight) pairs, from an arbitrary starting state. -/
def foldFrom (s : AverageState) (ps : List (ℚ × ℚ)) : AverageState :=
  ps.foldl (fun s p => stepPure s p.1 p.2) s

/-- The incremental update applied in arrival order from the initial state. -/
def foldPure (ps : List (ℚ × ℚ)) : AverageState :=
  foldFrom initState ps

/-- The (value, weight) pairs produced by projections `f` and `g` on a list of
items, the index (the subscriber's `count`) starting at `c`. -/
def pairsFrom {T : Type} (f g : T → Nat → ℚ) : Nat → List T → List (ℚ × ℚ)
  | _, [] => []
  | c, item :: rest => (f item c, g item c) :: pairsFrom f g (c + 1) rest

/-- The (value, weight) pairs of a run started at index `0`. -/
def pairsOf {T : Type} (f g : T → Nat → ℚ) (items : List T) : List (ℚ × ℚ) :=
  pairsFrom f g 0 items

/-- Sum of the weights of a list of (value, weight) pairs. -/
def wsum (ps : List (ℚ × ℚ)) : ℚ := (ps.map Prod.snd).sum

/-- Weighted sum of the values of a list of (value, weight) pairs. -/
def wvsum (ps : List (ℚ × ℚ)) : ℚ := (ps.map fun p => p.1 * p.2).sum

/-- The weighted mean of a list of (value, weight) pairs, by re-summation. -/
def weightedMean (ps : List (ℚ × ℚ)) : ℚ := wvsum ps / wsum ps

/-- The successive running averages: the `value` field after each step of the
incremental update, in arrival order. -/
def runningValuesFrom : AverageState → List (ℚ × ℚ) → List ℚ
  | _, [] => []
  | s, p :: rest =>
    (stepPure s p.1 p.2).value :: runningValuesFrom (stepPure s p.1 p.2) rest

/-! ### Lemmas about the incremental update -/

lemma foldFrom_nil (s : AverageState) : foldFrom s [] = s := rfl

lemma foldFrom_cons (s : AverageState) (p : ℚ × ℚ) (ps : List (ℚ × ℚ)) :
    foldFrom s (p :: ps) = foldFrom (stepPure s p.1 p.2) ps := rfl

lemma foldFrom_append (s : AverageState) (ps qs : List (ℚ × ℚ)) :
    foldFrom s (ps ++ qs) = foldFrom (foldFrom s ps) qs := by
  simp [foldFrom]

lemma wsum_nil : wsum [] = 0 := rfl

lemma wsum_cons (p : ℚ × ℚ) (ps : List (ℚ × ℚ)) :
    wsum (p :: ps) = p.2 + wsum ps := by
  simp [wsum]

lemma wsum_append (ps qs : List (ℚ × ℚ)) :
    wsum (ps ++ qs) = wsum ps + wsum qs := by
  simp [wsum]

lemma wvsum_nil : wvsum [] = 0 := rfl

lemma wvsum_append (ps qs : List (ℚ × ℚ)) :
    wvsum (ps ++ qs) = wvsum ps + wvsum qs := by
  simp [wvsum]

lemma foldFrom_count (ps : List (ℚ × ℚ)) :
    ∀ s : AverageState, (foldFrom s ps).count = s.count + ps.length := by
  induction ps with
  | nil => intro s; simp [foldFrom]
  | cons p ps ih =>
    intro s
    rw [foldFrom_cons, ih]
    simp [stepPure]
    omega

lemma foldFrom_sumWeights (ps : List (ℚ × ℚ)) :
    ∀ s : AverageState, (foldFrom s ps).sumWeights = s.sumWeights + wsum ps := by
  induction ps with
  | nil => intro s; simp [foldFrom, wsum]
  | cons p ps ih =>
    intro s
    rw [foldFrom_cons, ih, wsum_cons]
    simp [stepPure]
    ring

lemma foldPure_count (ps : List (ℚ × ℚ)) : (foldPure ps).count = ps.length := by
  simp [foldPure, foldFrom_count, initState]

lemma foldPure_sumWeights (ps : List (ℚ × ℚ)) :
    (foldPure ps).sumWeights = wsum ps := by
  simp [foldPure, foldFrom_sumWeights, initState]

/-- Core invariant of the incremental weighted-mean update: as long as every
partial sum of weights reached so far is nonzero, the running value times the
total weight equals the weighted sum of the values. -/
lemma foldPure_value_mul (ps : List (ℚ × ℚ))
    (hw : ∀ n ∈ List.range ps.length, wsum (ps.take (n + 1)) ≠ 0) :
    (foldPure ps).value * wsum ps = wvsum ps := by
  induction ps using List.reverseRecOn with
  | nil => simp [foldPure, foldFrom, initState, wsum, wvsum]
  | append_singleton qs p ih =>
    have htake : (qs ++ [p]).take (qs.length + 1) = qs ++ [p] := by
      have : qs.length + 1 = (qs ++ [p]).length := by simp
      rw [this, List.take_length]
    have hW : wsum (qs ++ [p]) ≠ 0 := by
      have := hw qs.length (by simp [List.mem_range])
      rwa [htake] at this
    have hW' : wsum qs + p.2 ≠ 0 := by
      rwa [wsum_append, wsum_cons, wsum_nil, add_zero] at hW
    have ihh : (foldPure qs).value * wsum qs = wvsum qs := by
      apply ih
      intro n hn
      rw [List.mem_range] at hn
      have := hw n (by simp [List.mem_range]; omega)
      rwa [List.take_append_of_le_length (by omega)] at this
    have hfold : foldPure (qs ++ [p]) = stepPure (foldPure qs) p.1 p.2 := by
      simp [foldPure, foldFrom]
    have hS : (foldPure qs).sumWeights = wsum qs := foldPure_sumWeights qs
    rw [hfold, wsum_append, wsum_cons, wsum_nil, add_zero,
      wvsum_append]
    simp only [stepPure, hS]
    have hp : wvsum [p] = p.1 * p.2 := by simp [wvsum]
    rw [hp, ← ihh]
    have expand : ((foldPure qs).value +
          p.2 / (wsum qs + p.2) * (p.1 - (foldPure qs).value)) * (wsum qs + p.2)
        = (foldPure qs).value * (wsum qs + p.2) +
          p.2 * (p.1 - (foldPure qs).value) / (wsum qs + p.2) * (wsum qs + p.2) := by
      ring
    rw [expand, div_mul_cancel₀ _ hW']
    ring

/-- With all partial weight sums nonzero, the state of the incremental update
carries exactly the weighted mean computed by re-summation. -/
lemma foldPure_value_eq_weightedMean (ps : List (ℚ × ℚ))
    (hw : ∀ n ∈ List.range ps.length, wsum (ps.take (n + 1)) ≠ 0)
    (hne : ps ≠ []) :
    (foldPure ps).value = weightedMean ps := by
  have hpos : 0 < ps.length := List.length_pos.mpr hne
  have hW : wsum ps ≠ 0 := by
    have := hw (ps.length - 1) (by simp [List.mem_range]; omega)
    have h1 : ps.length - 1 + 1 = ps.length := by omega
    rwa [h1, List.take_length] at this
  rw [weightedMean, eq_div_iff hW]
  exact foldPure_value_mul ps hw

/-! ### Lemmas about runs with non-throwing projections -/

lemma pairsFrom_length {T : Type} (f g : T → Nat → ℚ) :
    ∀ (items : List T) (c : Nat), (pairsFrom f g c items).length = items.length := by
  intro items
  induction items with
  | nil => intro c; rfl
  | cons x rest ih => intro c; simp [pairsFrom, ih]

lemma pairsFrom_take {T : Type} (f g : T → Nat → ℚ) :
    ∀ (items : List T) (c n : Nat),
      pairsFrom f g c (items.take n) = (pairsFrom f g c items).take n := by
  intro items
  induction items with
  | nil => intro c n; simp [pairsFrom]
  | cons x rest ih =>
    intro c n
    cases n with
    | zero => simp [pairsFrom]
    | succ m => simp [pairsFrom, ih]

lemma pairsOf_take {T : Type} (f g : T → Nat → ℚ) (items : List T) (n : Nat) :
    pairsOf f g (items.take n) = (pairsOf f g items).take n :=
  pairsFrom_take f g items 0 n

lemma wsum_pairsFrom_one {T : Type} (f : T → Nat → ℚ) :
    ∀ (items : List T) (c : Nat),
      wsum (pairsFrom f (fun _ _ => 1) c items) = items.length := by
  intro items
  induction items with
  | nil => intro c; simp [pairsFrom, wsum]
  | cons x rest ih =>
    intro c
    rw [pairsFrom, wsum_cons, ih, List.length_cons]
    push_cast
    ring

lemma wvsum_pairsFrom_one {T : Type} (f : T → Nat → ℚ) :
    ∀ (items : List T) (c : Nat),
      wvsum (pairsFrom f (fun _ _ => 1) c items)
        = ((pairsFrom f (fun _ _ => 1) c items).map Prod.fst).sum := by
  intro items
  induction items with
  | nil => intro c; simp [pairsFrom, wvsum]
  | cons x rest ih =>
    intro c
    simp only [pairsFrom, wvsum, List.map_cons, List.sum_cons, mul_one]
    have h := ih (c + 1)
    simp only [wvsum] at h
    rw [h]

lemma runningValuesFrom_length :
    ∀ (ps : List (ℚ × ℚ)) (s : AverageState),
      (runningValuesFrom s ps).length = ps.length := by
  intro ps
  induction ps with
  | nil => intro s; rfl
  | cons p rest ih => intro s; simp [runningValuesFrom, ih]

lemma runningValuesFrom_get? :
    ∀ (ps : List (ℚ × ℚ)) (s : AverageState) (n : Nat), n < ps.length →
      (runningValuesFrom s ps).get? n
        = some (foldFrom s (ps.take (n + 1))).value := by
  intro ps
  induction ps with
  | nil => intro s n h; simp at h
  | cons p rest ih =>
    intro s n h
    cases n with
    | zero =>
      simp [runningValuesFrom, foldFrom_cons, foldFrom_nil]
    | succ m =>
      have hm : m < rest.length := by simpa using h
      simp only [runningValuesFrom, List.get?]
      rw [ih (stepPure s p.1 p.2) m hm]
      simp [foldFrom_cons]

/-- With non-throwing projections, delivering one item never errors and is one
step of the incremental update. -/
lemma averageNext_pure {T E : Type} (f g : T → Nat → ℚ) (b : Bool)
    (s : AverageState) (item : T) :
    averageNext (E := E) (pureProj f) (pureProj g) b s item
      = ⟨stepPure s (f item s.count) (g item s.count),
         if b then [.next (stepPure s (f item s.count) (g item s.count)).value]
         else [],
         false⟩ := rfl

/-- With non-throwing projections, a run over a list of items is the
incremental update folded over the projected (value, weight) pairs, and in
running mode emits exactly the successive running averages. -/
lemma processItems_pure {T E : Type} (f g : T → Nat → ℚ) (b : Bool) :
    ∀ (items : List T) (s : AverageState),
      processItems (E := E) (pureProj f) (pureProj g) b s items
        = ⟨foldFrom s (pairsFrom f g s.count items),
           if b then
             (runningValuesFrom s (pairsFrom f g s.count items)).map Event.next
           else [],
           false⟩ := by
  intro items
  induction items with
  | nil =>
    intro s
    cases b <;> simp [processItems, pairsFrom, foldFrom_nil, runningValuesFrom]
  | cons x rest ih =>
    intro s
    rw [processItems]
    rw [averageNext_pure]
    simp only [Bool.false_eq_true, if_false]
    rw [ih]
    have hc : (stepPure s (f x s.count) (g x s.count)).count = s.count + 1 := rfl
    rw [hc]
    cases b <;>
      simp [pairsFrom, foldFrom_cons, runningValuesFrom]

/-- Delivering an item whose projections both succeed: no error, one update. -/
lemma averageNext_ok {T E : Type} (f g : Proj T E) (b : Bool)
    (s : AverageState) (item : T) (v w : ℚ)
    (hv : f item s.count = Except.ok v) (hw : g item s.count = Except.ok w) :
    averageNext f g b s item
      = ⟨⟨s.count + 1, s.value + w / (s.sumWeights + w) * (v - s.value),
          s.sumWeights + w⟩,
         if b then
           [.next (s.value + w / (s.sumWeights + w) * (v - s.value))]
         else [], false⟩ := by
  simp [averageNext, hv, hw]

/-- Delivering an item whose value projection throws: the error is forwarded,
the state is untouched. -/
lemma averageNext_errValue {T E : Type} (f g : Proj T E) (b : Bool)
    (s : AverageState) (item : T) (e : E)
    (hv : f item s.count = Except.error e) :
    averageNext f g b s item = ⟨s, [.error e], true⟩ := by
  simp [averageNext, hv]

/-- Delivering an item whose weight projection throws: the error is forwarded,
the state is untouched. -/
lemma averageNext_errWeight {T E : Type} (f g : Proj T E) (b : Bool)
    (s : AverageState) (item : T) (v : ℚ) (e : E)
    (hv : f item s.count = Except.ok v)
    (hw : g item s.count = Except.error e) :
    averageNext f g b s item = ⟨s, [.error e], true⟩ := by
  simp [averageNext, hv, hw]

/-- A run over items on which both projections succeed does not error, counts
every item, and (in running mode) emits exactly one value per item. -/
lemma processItems_allOk {T E : Type} (f g : Proj T E) :
    ∀ (pre : List T) (s : AverageState),
      (∀ i (h : i < pre.length), ∃ v w,
        f (pre.get ⟨i, h⟩) (s.count + i) = Except.ok v ∧
        g (pre.get ⟨i, h⟩) (s.count + i) = Except.ok w) →
      (processItems f g true s pre).errored = false
      ∧ (processItems f g true s pre).state.count = s.count + pre.length
      ∧ (processItems f g true s pre).events.length = pre.length
      ∧ ∀ ev ∈ (processItems f g true s pre).events, ∃ q, ev = Event.next q := by
  intro pre
  induction pre with
  | nil =>
    intro s _
    simp [processItems]
  | cons x rest ih =>
    intro s hok
    obtain ⟨v, w, hv, hw⟩ := hok 0 (by simp)
    simp only [List.get, Nat.add_zero] at hv hw
    have hnext := averageNext_ok f g true s x v w hv hw
    have hok' : ∀ i (h : i < rest.length), ∃ v w,
        f (rest.get ⟨i, h⟩) ((averageNext f g true s x).state.count + i)
          = Except.ok v ∧
        g (rest.get ⟨i, h⟩) ((averageNext f g true s x).state.count + i)
          = Except.ok w := by
      intro i h
      obtain ⟨v', w', hv', hw'⟩ := hok (i + 1) (by simpa using h)
      refine ⟨v', w', ?_, ?_⟩
      · rw [hnext]
        simpa [Nat.add_right_comm] using hv'
      · rw [hnext]
        simpa [Nat.add_right_comm] using hw'
    obtain ⟨ih1, ih2, ih3, ih4⟩ := ih (averageNext f g true s x).state hok'
    simp only [processItems, hnext]
    rw [hnext] at ih1 ih2 ih3 ih4
    simp only [hnext] at *
    refine ⟨by simpa using ih1, ?_, ?_, ?_⟩
    · simpa [Nat.add_right_comm, Nat.add_assoc] using ih2
    · simpa using ih3
    · intro ev hev
      simp at hev
      rcases hev with h1 | h2
      · exact ⟨_, h1⟩
      · exact ih4 ev (by simpa using h2)

/-- Splitting a run at a point where no error has yet occurred. -/
lemma processItems_append_of_ok {T E : Type} (f g : Proj T E) (b : Bool) :
    ∀ (xs : List T) (s : AverageState) (ys : List T),
      (processItems f g b s xs).errored = false →
      processItems f g b s (xs ++ ys)
        = ⟨(processItems f g b (processItems f g b s xs).state ys).state,
           (processItems f g b s xs).events
             ++ (processItems f g b (processItems f g b s xs).state ys).events,
           (processItems f g b (processItems f g b s xs).state ys).errored⟩ := by
  intro xs
  induction xs with
  | nil =>
    intro s ys _
    simp [processItems]
  | cons x rest ih =>
    intro s ys h
    simp only [List.cons_append, processItems] at h ⊢
    by_cases ho : (averageNext f g b s x).errored
    · simp [ho] at h
    · simp only [ho, Bool.false_eq_true, if_false] at h ⊢
      rw [show rest.append ys = rest ++ ys from rfl,
        ih (averageNext f g b s x).state ys h]
      simp [List.append_assoc]

/-- A run whose first item makes a projection throw forwards exactly that
error. -/
lemma processItems_cons_err {T E : Type} (f g : Proj T E) (b : Bool)
    (s : AverageState) (x : T) (rest : List T) (e : E)
    (h : averageNext f g b s x = ⟨s, [.error e], true⟩) :
    processItems f g b s (x :: rest) = ⟨s, [.error e], true⟩ := by
  simp [processItems, h]

/-- A pure run from the initial state, running mode. -/
lemma processItems_pure_run {T E : Type} (f g : T → Nat → ℚ) (items : List T) :
    processItems (E := E) (pureProj f) (pureProj g) true initState items
      = ⟨foldPure (pairsOf f g items),
         (runningValuesFrom initState (pairsOf f g items)).map Event.next,
         false⟩ := by
  rw [processItems_pure]
  rfl

/-- A pure run from the initial state, final-only mode: nothing is emitted
while items arrive. -/
lemma processItems_pure_final {T E : Type} (f g : T → Nat → ℚ) (items : List T) :
    processItems (E := E) (pureProj f) (pureProj g) false initState items
      = ⟨foldPure (pairsOf f g items), [], false⟩ := by
  rw [processItems_pure]
  rfl

/-- After `n` items, the subscriber state is the incremental fold of the
first `n` pairs, its value is the weighted mean by re-summation, and the
`n`-th running emission carries it. -/
lemma run_weightedMean {T E : Type} (f g : T → Nat → ℚ) (items : List T) (n : Nat)
    (hn : 0 < n) (hlen : n ≤ items.length)
    (hw : ∀ k ∈ List.range n, wsum (pairsOf f g (items.take (k + 1))) ≠ 0) :
    (processItems (E := E) (pureProj f) (pureProj g) true initState
        (items.take n)).state
      = foldPure (pairsOf f g (items.take n))
    ∧ (foldPure (pairsOf f g (items.take n))).value
      = weightedMean (pairsOf f g (items.take n))
    ∧ (runAverage (E := E) (pureProj f) (pureProj g) true items
        UpstreamEnd.complete).get? (n - 1)
      = some (Event.next (foldPure (pairsOf f g (items.take n))).value) := by
  have hlen' : (items.take n).length = n := by
    simp [List.length_take]
    omega
  have hps : (pairsOf f g (items.take n)).length = n := by
    rw [pairsOf, pairsFrom_length, hlen']
  have hw' : ∀ m ∈ List.range (pairsOf f g (items.take n)).length,
      wsum ((pairsOf f g (items.take n)).take (m + 1)) ≠ 0 := by
    intro m hm
    rw [hps, List.mem_range] at hm
    have h1 : (pairsOf f g (items.take n)).take (m + 1)
        = pairsOf f g ((items.take n).take (m + 1)) := (pairsOf_take f g _ _).symm
    have h2 : (items.take n).take (m + 1) = items.take (m + 1) := by
      rw [List.take_take]
      congr 1
      omega
    rw [h1, h2]
    exact hw m (by rwa [List.mem_range])
  refine ⟨?_, ?_, ?_⟩
  · rw [processItems_pure_run]
  · exact foldPure_value_eq_weightedMean _ hw'
      (by intro hcon; rw [hcon] at hps; simp at hps; omega)
  · rw [runAverage, processItems_pure_run]
    simp only [Bool.false_eq_true, if_false]
    have hrvlen : ((runningValuesFrom initState (pairsOf f g items)).map
        (Event.next (E := E))).length = items.length := by
      rw [List.length_map, runningValuesFrom_length, pairsOf, pairsFrom_length]
    rw [List.get?_append (by rw [hrvlen]; omega), List.get?_map,
      runningValuesFrom_get? _ _ _
        (by rw [pairsOf, pairsFrom_length]; omega)]
    have hn1 : n - 1 + 1 = n := by omega
    rw [hn1, ← pairsOf_take]
    rfl

/-! ### Claim theorems -/

/-- C1: for every finite sequence of upstream items and every pair of
projection functions whose weights keep every partial sum of weights nonzero,
after the transform processes the first `n` items its running average equals
the weighted mean of the first `n` (value, weight) pairs, computed by the
incremental update `sumOfWeights += w; runningAverage +=
(w / sumOfWeights) * (v - runningAverage)` applied in arrival order
(`foldPure`), and in RUNNING mode the `n`-th emitted value equals this
running average. -/
theorem avg_C1 {T E : Type} (f g : T → Nat → ℚ) (items : List T) (n : Nat)
    (hn : 0 < n) (hlen : n ≤ items.length)
    (hw : ∀ k ∈ List.range n, wsum (pairsOf f g (items.take (k + 1))) ≠ 0) :
    (processItems (E := E) (pureProj f) (pureProj g) true initState
        (items.take n)).state
      = foldPure (pairsOf f g (items.take n))
    ∧ (foldPure (pairsOf f g (items.take n))).value
      = weightedMean (pairsOf f g (items.take n))
    ∧ (runAverage (E := E) (pureProj f) (pureProj g) true items
        UpstreamEnd.complete).get? (n - 1)
      = some (Event.next (foldPure (pairsOf f g (items.take n))).value) :=
  run_weightedMean f g items n hn hlen hw

/-- Witness for C1: items `[1, 2, 3]` with value and weight projections both
the item itself; after `n = 2` items the running average is the weighted mean
`(1·1 + 2·2) / (1 + 2) = 5/3`, and it is the second emitted value. -/
theorem avg_C1_witness :
    (0 < 2 ∧ 2 ≤ ([1, 2, 3] : List ℚ).length
      ∧ ∀ k ∈ List.range 2,
          wsum (pairsOf (fun v _ => v) (fun v _ => v)
            (([1, 2, 3] : List ℚ).take (k + 1))) ≠ 0)
    ∧ ((processItems (E := Unit) (pureProj fun v _ => v) (pureProj fun v _ => v)
          true initState (([1, 2, 3] : List ℚ).take 2)).state
        = foldPure (pairsOf (fun v _ => v) (fun v _ => v)
            (([1, 2, 3] : List ℚ).take 2))
      ∧ (foldPure (pairsOf (fun v _ => v) (fun v _ => v)
            (([1, 2, 3] : List ℚ).take 2))).value
        = weightedMean (pairsOf (fun v _ => v) (fun v _ => v)
            (([1, 2, 3] : List ℚ).take 2))
      ∧ (runAverage (E := Unit) (pureProj fun v _ => v) (pureProj fun v _ => v)
          true ([1, 2, 3] : List ℚ) UpstreamEnd.complete).get? (2 - 1)
        = some (Event.next (foldPure (pairsOf (fun v _ => v) (fun v _ => v)
            (([1, 2, 3] : List ℚ).take 2))).value)) := by
  have h3 : ∀ k ∈ List.range 2,
      wsum (pairsOf (fun v _ => v) (fun v _ => v)
        (([1, 2, 3] : List ℚ).take (k + 1))) ≠ 0 := by
    intro k hk
    fin_cases hk <;> norm_num [pairsOf, pairsFrom, wsum]
  exact ⟨⟨by norm_num, by norm_num, h3⟩,
    avg_C1 (fun v _ => v) (fun v _ => v) [1, 2, 3] 2
      (by norm_num) (by norm_num) h3⟩

/-- C2: for every non-empty finite sequence with the weight projection
constantly `1`, the `n`-th running emitted value equals the arithmetic mean
`sum/count` of the first `n` values; in particular, with the default
projections, input `[1, 2, 3]` in RUNNING mode emits `[1, 1.5, 2]` and then
completes. -/
theorem avg_C2 {T E : Type} (f : T → Nat → ℚ) (items : List T) (n : Nat)
    (hn : 0 < n) (hlen : n ≤ items.length) :
    (runAverage (E := E) (pureProj f) one true items
        UpstreamEnd.complete).get? (n - 1)
      = some (Event.next
          (((pairsOf f (fun _ _ => 1) (items.take n)).map Prod.fst).sum
            / (n : ℚ)))
    ∧ runAverage (E := Unit)
        (averageOperation () (fun q : ℚ => some q) none none).1
        (averageOperation () (fun q : ℚ => some q) none none).2
        true ([1, 2, 3] : List ℚ) UpstreamEnd.complete
      = [Event.next 1, Event.next (3 / 2), Event.next 2, Event.complete] := by
  constructor
  · have hw : ∀ k ∈ List.range n,
        wsum (pairsOf f (fun _ _ => 1) (items.take (k + 1))) ≠ 0 := by
      intro k hk
      rw [List.mem_range] at hk
      rw [pairsOf, wsum_pairsFrom_one]
      have : (items.take (k + 1)).length = k + 1 := by
        simp [List.length_take]
        omega
      rw [this]
      positivity
    obtain ⟨_, h2, h3⟩ := run_weightedMean (E := E) f (fun _ _ => 1) items n hn
      hlen hw
    have hone : (one : Proj T E) = pureProj fun _ _ => 1 := rfl
    rw [hone, h3, h2, weightedMean, pairsOf, wvsum_pairsFrom_one,
      wsum_pairsFrom_one]
    have : (items.take n).length = n := by
      simp [List.length_take]
      omega
    rw [this]
  · norm_num [runAverage, processItems, averageNext, averageComplete,
      averageOperation, identity, one, initState]

/-- Witness for C2: values `[4, 6]` with unit weights; the second emitted
value is the arithmetic mean `5`; the concrete `[1, 2, 3]` scenario comes
along with it. -/
theorem avg_C2_witness :
    (0 < 2 ∧ 2 ≤ ([4, 6] : List ℚ).length)
    ∧ ((runAverage (E := Unit) (pureProj fun v _ => v) one true
          ([4, 6] : List ℚ) UpstreamEnd.complete).get? (2 - 1)
        = some (Event.next
            (((pairsOf (fun v _ => v) (fun _ _ => 1)
                (([4, 6] : List ℚ).take 2)).map Prod.fst).sum / (2 : ℚ)))
      ∧ runAverage (E := Unit)
          (averageOperation () (fun q : ℚ => some q) none none).1
          (averageOperation () (fun q : ℚ => some q) none none).2
          true ([1, 2, 3] : List ℚ) UpstreamEnd.complete
        = [Event.next 1, Event.next (3 / 2), Event.next 2, Event.complete]) :=
  ⟨⟨by norm_num, by norm_num⟩,
    avg_C2 (fun v _ => v) [4, 6] 2 (by norm_num) (by norm_num)⟩

/-- C3: the three-way defaulting of `averageOperation`, resolved once when the
operator is applied to a source (the resolution does not depend on any item):
no projections supplied gives (numeric identity, constant 1); only a value
projection supplied gives (it, constant 1); both supplied are used as
given. -/
theorem avg_C3 {T E : Type} (tyErr : E) (isNum : T → Option ℚ) :
    averageOperation tyErr isNum none none = (identity isNum, one)
    ∧ (∀ p : Proj T E,
        averageOperation tyErr isNum (some p) none = (p, one))
    ∧ (∀ p pw : Proj T E,
        averageOperation tyErr isNum (some p) (some pw) = (p, pw)) :=
  ⟨rfl, fun _ => rfl, fun _ _ => rfl⟩

/-- C5 counterexample: no construction input puts the instance in FINAL_ONLY
mode — for every combination of supplied projections the constructed
subscriber has `isRunning = true` (the constructor hardcodes it). -/
theorem avg_C5_counterexample :
    ¬ ∃ project projectWeight : Option (Proj ℚ Unit),
        (subscribeAverage () (fun q => some q) project projectWeight).isRunning
          = false := by
  rintro ⟨p, pw, h⟩
  simp [subscribeAverage, mkAverageSubscriber] at h

/-- C5 amended: every construction input yields an instance in RUNNING mode;
the construction surface offers no way to select FINAL_ONLY. -/
theorem avg_C5_alwaysRunning {T E : Type} (tyErr : E) (isNum : T → Option ℚ)
    (project projectWeight : Option (Proj T E)) :
    (subscribeAverage tyErr isNum project projectWeight).isRunning = true :=
  rfl

/-- C6 counterexample: in FINAL_ONLY mode with zero items received, upstream
completion makes the transform emit the value `0` before completing — it does
not complete without a preceding value emission as the claim states. -/
theorem avg_C6_counterexample :
    runAverage (E := Unit) (pureProj fun v _ => v) one false ([] : List ℚ)
        UpstreamEnd.complete
      = [Event.next 0, Event.complete] := rfl

/-- C6 amended: in FINAL_ONLY mode, on upstream completion the transform
emits the running average exactly once, immediately before forwarding
completion, regardless of how many items were received — when zero items were
received it emits the initial value `0`. -/
theorem avg_C6_finalOnly {T E : Type} (f g : T → Nat → ℚ) (items : List T) :
    runAverage (E := E) (pureProj f) (pureProj g) false items
        UpstreamEnd.complete
      = [Event.next (foldPure (pairsOf f g items)).value, Event.complete] := by
  rw [runAverage, processItems_pure_final]
  rfl

/-- C10: if a projection throws while processing an item, the state is
unchanged by that item — `count`, `sumWeights` and the running `value` keep
exactly the values they had before the item arrived, because both projections
are evaluated before any state mutation. -/
theorem avg_C10 {T E : Type} (f g : Proj T E) (b : Bool) (s : AverageState)
    (item : T) (e : E)
    (h : f item s.count = Except.error e
      ∨ ∃ v, f item s.count = Except.ok v
          ∧ g item s.count = Except.error e) :
    (averageNext f g b s item).state = s := by
  rcases h with h | ⟨v, hv, hw⟩
  · rw [averageNext_errValue f g b s item e h]
  · rw [averageNext_errWeight f g b s item v e hv hw]

/-- Witness for C10: a value projection that always throws leaves the initial
state untouched. -/
theorem avg_C10_witness :
    ((fun (_ : ℚ) (_ : Nat) => (Except.error () : Except Unit ℚ)) 5
        initState.count = Except.error ()
      ∨ ∃ v, (fun (_ : ℚ) (_ : Nat) => (Except.error () : Except Unit ℚ)) 5
            initState.count = Except.ok v
          ∧ one 5 initState.count = Except.error ())
    ∧ (averageNext (fun _ _ => Except.error ()) (one (E := Unit)) true
        initState (5 : ℚ)).state = initState :=
  ⟨Or.inl rfl,
    avg_C10 (fun _ _ => Except.error ()) one true initState 5 () (Or.inl rfl)⟩

/-- C4: if either projection throws on the `k`-th item, the transform
forwards that error downstream as a stream error, emits no value for the
failing item, and processes no further upstream items (the trace does not
depend on the items after the failing one); in RUNNING mode exactly `k - 1`
values were emitted before the error, and no completion is signaled. -/
theorem avg_C4 {T E : Type} (f g : Proj T E) (pre post : List T) (bad : T)
    (k : Nat) (e : E) (term : UpstreamEnd E)
    (hpos : 0 < k) (hk : pre.length = k - 1)
    (hok : ∀ i (h : i < pre.length), ∃ v w,
        f (pre.get ⟨i, h⟩) i = Except.ok v
        ∧ g (pre.get ⟨i, h⟩) i = Except.ok w)
    (herr : f bad (k - 1) = Except.error e
      ∨ ∃ v, f bad (k - 1) = Except.ok v
          ∧ g bad (k - 1) = Except.error e) :
    runAverage f g true (pre ++ bad :: post) term
      = (processItems f g true initState pre).events ++ [Event.error e]
    ∧ (processItems f g true initState pre).events.length = k - 1
    ∧ (∀ ev ∈ (processItems f g true initState pre).events,
        ∃ q, ev = Event.next q)
    ∧ Event.complete ∉ runAverage f g true (pre ++ bad :: post) term := by
  have hok0 : ∀ i (h : i < pre.length), ∃ v w,
      f (pre.get ⟨i, h⟩) (initState.count + i) = Except.ok v
      ∧ g (pre.get ⟨i, h⟩) (initState.count + i) = Except.ok w := by
    intro i h
    simpa [initState] using hok i h
  obtain ⟨ha1, ha2, ha3, ha4⟩ := processItems_allOk f g pre initState hok0
  have hc : (processItems f g true initState pre).state.count = k - 1 := by
    rw [ha2, hk]
    simp [initState]
  have hbad : averageNext f g true (processItems f g true initState pre).state
      bad = ⟨(processItems f g true initState pre).state, [.error e], true⟩ := by
    rcases herr with h | ⟨v, hv, hw⟩
    · exact averageNext_errValue f g true _ bad e (by rwa [hc])
    · exact averageNext_errWeight f g true _ bad v e (by rwa [hc]) (by rwa [hc])
  have hsplit := processItems_append_of_ok f g true pre initState
    (bad :: post) ha1
  have hcons := processItems_cons_err f g true
    (processItems f g true initState pre).state bad post e hbad
  have hall : processItems f g true initState (pre ++ bad :: post)
      = ⟨(processItems f g true initState pre).state,
         (processItems f g true initState pre).events ++ [Event.error e],
         true⟩ := by
    rw [hsplit, hcons]
  have hrun : runAverage f g true (pre ++ bad :: post) term
      = (processItems f g true initState pre).events ++ [Event.error e] := by
    simp [runAverage, hall]
  refine ⟨hrun, by rw [ha3, hk], ha4, ?_⟩
  rw [hrun]
  intro hmem
  rcases List.mem_append.mp hmem with h | h
  · obtain ⟨q, hq⟩ := ha4 _ h
    exact Event.noConfusion hq
  · simp at h

/-- Witness for C4: value projection throwing on the second item (`k = 2`) of
`[10, 20, 30]`; exactly one running value was emitted before the error. -/
theorem avg_C4_witness :
    (0 < 2 ∧ ([(10 : ℚ)] : List ℚ).length = 2 - 1
      ∧ (∀ i (h : i < ([(10 : ℚ)] : List ℚ).length), ∃ v w,
          (fun (x : ℚ) (i : Nat) =>
            if i = 1 then (Except.error () : Except Unit ℚ) else Except.ok x)
            (([(10 : ℚ)] : List ℚ).get ⟨i, h⟩) i = Except.ok v
          ∧ one (E := Unit) (([(10 : ℚ)] : List ℚ).get ⟨i, h⟩) i
              = Except.ok w)
      ∧ ((fun (x : ℚ) (i : Nat) =>
            if i = 1 then (Except.error () : Except Unit ℚ) else Except.ok x)
            20 (2 - 1) = Except.error ()
          ∨ ∃ v, (fun (x : ℚ) (i : Nat) =>
              if i = 1 then (Except.error () : Except Unit ℚ) else Except.ok x)
              20 (2 - 1) = Except.ok v
            ∧ one (T := ℚ) (E := Unit) 20 (2 - 1) = Except.error ()))
    ∧ (runAverage
          (fun (x : ℚ) (i : Nat) =>
            if i = 1 then (Except.error () : Except Unit ℚ) else Except.ok x)
          one true ([10] ++ 20 :: [30]) UpstreamEnd.complete
        = (processItems
            (fun (x : ℚ) (i : Nat) =>
              if i = 1 then (Except.error () : Except Unit ℚ) else Except.ok x)
            one true initState [10]).events ++ [Event.error ()]
      ∧ (processItems
          (fun (x : ℚ) (i : Nat) =>
            if i = 1 then (Except.error () : Except Unit ℚ) else Except.ok x)
          one true initState [10]).events.length = 2 - 1
      ∧ (∀ ev ∈ (processItems
          (fun (x : ℚ) (i : Nat) =>
            if i = 1 then (Except.error () : Except Unit ℚ) else Except.ok x)
          one true initState [10]).events, ∃ q, ev = Event.next q)
      ∧ Event.complete ∉ runAverage
          (fun (x : ℚ) (i : Nat) =>
            if i = 1 then (Except.error () : Except Unit ℚ) else Except.ok x)
          one true ([10] ++ 20 :: [30]) UpstreamEnd.complete) := by
  have hok : ∀ i (h : i < ([(10 : ℚ)] : List ℚ).length), ∃ v w,
      (fun (x : ℚ) (i : Nat) =>
        if i = 1 then (Except.error () : Except Unit ℚ) else Except.ok x)
        (([(10 : ℚ)] : List ℚ).get ⟨i, h⟩) i = Except.ok v
      ∧ one (E := Unit) (([(10 : ℚ)] : List ℚ).get ⟨i, h⟩) i
          = Except.ok w := by
    intro i h
    have hi : i = 0 := by simp at h; omega
    subst hi
    exact ⟨10, 1, rfl, rfl⟩
  exact ⟨⟨by norm_num, by norm_num, hok, Or.inl rfl⟩,
    avg_C4 _ one [10] [30] 20 2 () UpstreamEnd.complete
      (by norm_num) (by norm_num) hok (Or.inl rfl)⟩

/-- C7: an upstream error is forwarded downstream unchanged, after all values
emitted for items received before the error, with no additional value for the
error itself and no completion. -/
theorem avg_C7 {T E : Type} (f g : T → Nat → ℚ) (items : List T) (e : E) :
    runAverage (pureProj f) (pureProj g) true items (UpstreamEnd.error e)
      = ((runningValuesFrom initState (pairsOf f g items)).map Event.next)
        ++ [Event.error e]
    ∧ Event.complete ∉
        runAverage (pureProj f) (pureProj g) true items
          (UpstreamEnd.error e) := by
  have h : runAverage (pureProj f) (pureProj g) true items
      (UpstreamEnd.error e)
      = ((runningValuesFrom initState (pairsOf f g items)).map Event.next)
        ++ [Event.error e] := by
    rw [runAverage, processItems_pure_run]
    simp
  refine ⟨h, ?_⟩
  rw [h]
  intro hmem
  rcases List.mem_append.mp hmem with hm | hm
  · obtain ⟨q, _, hq⟩ := List.mem_map.mp hm
    exact Event.noConfusion hq
  · simp at hm

/-- C8: in RUNNING mode, upstream completion causes no extra value emission:
the transform emits one value per item and then forwards completion exactly
once, after all pending emissions. -/
theorem avg_C8 {T E : Type} (f g : T → Nat → ℚ) (items : List T) :
    runAverage (E := E) (pureProj f) (pureProj g) true items
        UpstreamEnd.complete
      = ((runningValuesFrom initState (pairsOf f g items)).map Event.next)
        ++ [Event.complete]
    ∧ (runAverage (E := E) (pureProj f) (pureProj g) true items
        UpstreamEnd.complete).countP Event.isComplete = 1
    ∧ (runAverage (E := E) (pureProj f) (pureProj g) true items
        UpstreamEnd.complete).countP Event.isNext = items.length := by
  have h : runAverage (E := E) (pureProj f) (pureProj g) true items
      UpstreamEnd.complete
      = ((runningValuesFrom initState (pairsOf f g items)).map Event.next)
        ++ [Event.complete] := by
    rw [runAverage, processItems_pure_run]
    rfl
  refine ⟨h, ?_, ?_⟩
  · rw [h, List.countP_append, List.countP_map]
    have h0 : List.countP (Event.isComplete (E := E) ∘ Event.next)
        (runningValuesFrom initState (pairsOf f g items)) = 0 := by
      rw [List.countP_eq_zero]
      intro a _
      simp [Function.comp, Event.isComplete]
    rw [h0]
    rfl
  · rw [h, List.countP_append, List.countP_map]
    have h1 : List.countP (Event.isNext (E := E) ∘ Event.next)
        (runningValuesFrom initState (pairsOf f g items))
        = (runningValuesFrom initState (pairsOf f g items)).length := by
      rw [List.countP_eq_length]
      intro a _
      rfl
    rw [h1, runningValuesFrom_length, pairsOf, pairsFrom_length]
    simp [Event.isNext]

/-- C9: after the downstream subscriber unsubscribes (after `k` delivered
items) and before upstream completes, the transform emits one running value
per delivered item and nothing else: no value for any undelivered item (the
trace only depends on the first `k` items, which the propagated upstream
unsubscription cuts the stream to) and no terminal event. -/
theorem avg_C9 {T E : Type} (f g : T → Nat → ℚ) (items : List T) (k : Nat) :
    runCancelled (E := E) (pureProj f) (pureProj g) true items k
      = ((runningValuesFrom initState
          (pairsOf f g (items.take k))).map Event.next)
    ∧ (runCancelled (E := E) (pureProj f) (pureProj g) true items k).length
        = min k items.length
    ∧ (∀ ev ∈ runCancelled (E := E) (pureProj f) (pureProj g) true items k,
        Event.isNext ev = true)
    ∧ runCancelled (E := E) (pureProj f) (pureProj g) true items k
        = runCancelled (E := E) (pureProj f) (pureProj g) true
            (items.take k) k := by
  have h : runCancelled (E := E) (pureProj f) (pureProj g) true items k
      = ((runningValuesFrom initState
          (pairsOf f g (items.take k))).map Event.next) := by
    rw [runCancelled, processItems_pure_run]
  refine ⟨h, ?_, ?_, ?_⟩
  · rw [h]
    simp [runningValuesFrom_length, pairsOf, pairsFrom_length,
      List.length_take]
  · rw [h]
    intro ev hev
    obtain ⟨q, _, hq⟩ := List.mem_map.mp hev
    rw [← hq]
    rfl
  · rw [h, runCancelled, processItems_pure_run, List.take_take]
    simp

end RxAverage
